import Mathlib

/-!
Verification development for the C# project analyzer
(`analyze_cs_projects.py` and `nuget.py`).

The Python sources are shallowly embedded as executable Lean functions.
External effects are modelled as explicit inputs:

* the filesystem walk yields a list of `FsFile` values (path, parse outcome of
  the project file, and the parsed entries of a sibling `packages.config`
  manifest when that file exists);
* HTTP traffic of the NuGet registry is an oracle `fetch : String → RegistrationInfo`
  mapping a request URL to the parsed JSON body, together with a
  `NugetServiceIndex` value holding the already-fetched service index document;
* Python exceptions are `Except String` values, the string naming the Python
  exception class;
* registry queries performed by `Reference.init` are recorded in an explicit
  query log so that lookup counts can be stated.

Python string primitives (`str.split`, `str.lower`, `str.upper`, string
comparison) are re-implemented over `List Char` so that every definition
reduces inside the kernel.
-/

namespace CsProj

/-! ### Python string primitives -/

/-- Splitting a character list at every occurrence of `sep`; the pieces are
returned in order and empty pieces are kept, matching Python `str.split(sep)`
(which returns `n + 1` pieces for `n` separators, and `[""]` on `""`). -/
def splitCharAux (sep : Char) : List Char → List (List Char)
  | [] => [[]]
  | c :: cs =>
    match splitCharAux sep cs with
    | [] => [[]]
    | p :: ps => if c = sep then [] :: p :: ps else (c :: p) :: ps

/-- Python `s.split(sep)` for a one-character separator. -/
def pySplit (sep : Char) (s : String) : List String :=
  (splitCharAux sep s.data).map (fun cs => String.mk cs)

/-- Python `s.lower()` (ASCII letters; the identifiers handled by the tool are
ASCII). -/
def pyLower (s : String) : String := String.mk (s.data.map Char.toLower)

/-- Python `s.upper()` (ASCII letters). -/
def pyUpper (s : String) : String := String.mk (s.data.map Char.toUpper)

/-- Code-point lexicographic comparison of character lists: the order Python
uses when comparing `str` values, as a Bool-valued (non-strict) order. -/
def charListLe : List Char → List Char → Bool
  | [], _ => true
  | _ :: _, [] => false
  | a :: as, b :: bs =>
    if a.toNat < b.toNat then true
    else if b.toNat < a.toNat then false
    else charListLe as bs

/-- Python string comparison `a <= b` (code-point lexicographic). -/
def strLe (a b : String) : Bool := charListLe a.data b.data

/-! ### Path helpers (`os.path.basename` / `os.path.splitext`) -/

/-- Final path component, accepting both separators
(`os.path.basename`). -/
def pathBasename (path : String) : String :=
  ((pySplit '/' path).flatMap (fun p => pySplit '\\' p)).getLastD ""

/-- Extension of a path component as computed by `os.path.splitext`: the
suffix starting at the last dot, provided some non-dot character precedes it
(so `".bashrc"` has no extension); `""` when there is no dot. -/
def splitextExtOf (base : String) : String :=
  let parts := pySplit '.' base
  if (decide (2 ≤ parts.length) && parts.dropLast.any (fun s => !(s == ""))) = true then
    "." ++ parts.getLastD ""
  else ""

/-- `os.path.splitext(path)[1]` for a full path. -/
def fileExtension (path : String) : String := splitextExtOf (pathBasename path)

/-- `os.path.splitext(os.path.basename(path))[0]`: the project name derived
from a project file path (`ProjectInfo.__get_project_name`). -/
def fileStem (path : String) : String :=
  let base := pathBasename path
  base.dropRight (splitextExtOf base).length

/-! ### nuget.py -/

/-- One entry of the `resources` array of the NuGet service index document;
`atType` and `atId` model its `@type` and `@id` JSON fields. -/
structure ServiceResource where
  atType : String
  atId : String
deriving DecidableEq

/-- `NugetServiceIndex`: holds the service index document fetched in
`NugetServiceIndex.__init__` (the fetch itself is an external effect that
happens before analysis). -/
structure NugetServiceIndex where
  resources : List ServiceResource
deriving DecidableEq

/-- `NugetServiceIndex.get_service_id`: first resource whose `@type` matches;
`next(iter([...]))` raises `StopIteration` when no resource matches. -/
def NugetServiceIndex.get_service_id (idx : NugetServiceIndex) (service_name : String) :
    Except String String :=
  match idx.resources.find? (fun x => x.atType == service_name) with
  | some s => Except.ok s.atId
  | none => Except.error "StopIteration"

/-- One element of the `items` array of a registration document; only the
`upper` field is read by the code. -/
structure RegistrationPage where
  upper : String
deriving DecidableEq

/-- Parsed body of a per-package registration document. -/
structure RegistrationInfo where
  items : List RegistrationPage
deriving DecidableEq

/-- The request URL built in `NugetPackageMetadata.__init__`:
`f"{uri}{package_id.lower()}/index.json"`. -/
def registrationUrl (uri : String) (package_id : String) : String :=
  uri ++ pyLower package_id ++ "/index.json"

/-- `NugetPackageMetadata.__init__`: resolve the `RegistrationsBaseUrl`
service, then fetch the registration document at the deterministic URL.
`fetch` is the HTTP oracle. -/
def NugetPackageMetadata.fetchInfo (fetch : String → RegistrationInfo)
    (service_index : NugetServiceIndex) (package_id : String) :
    Except String RegistrationInfo :=
  match service_index.get_service_id "RegistrationsBaseUrl" with
  | Except.error e => Except.error e
  | Except.ok uri => Except.ok (fetch (registrationUrl uri package_id))

/-- `NugetPackageMetadata.get_latest_version`:
`[x['upper'] for x in self.registration_info['items']]`. -/
def NugetPackageMetadata.get_latest_version (info : RegistrationInfo) : List String :=
  info.items.map (fun x => x.upper)

/-! ### analyze_cs_projects.py: data classes -/

/-- `NuGetPackage`: one `package` element of a `packages.config` manifest. -/
structure NuGetPackage where
  Id : String
  Version : String
  TargetFramework : String
deriving DecidableEq

/-- `Reference`: the record built by `Reference.__init__`. -/
structure Reference where
  FullName : String
  Name : String
  Version : String
  IsNuGetPackage : Bool
  LatestVersion : Option String
deriving DecidableEq

/-- The version extraction of `Reference.__init__` lines 37-40:
`tokens[1].split("=")[1]` when `len(tokens) > 1`, else `""`; a second token
without `"="` makes the final `[1]` raise `IndexError`. -/
def pyVersionToken (tokens : List String) : Except String String :=
  if 1 < tokens.length then
    match (pySplit '=' (tokens.getD 1 "")).get? 1 with
    | some v => Except.ok v
    | none => Except.error "IndexError"
  else
    Except.ok ""

/-- The bare name of a declared reference string: `tokens[0]` on line 36
(`str.split` never returns an empty list, so the index cannot fail). -/
def refBareName (reference_name : String) : String :=
  (pySplit ',' reference_name).headD ""

/-- `Reference.__init__`. Returns the constructed record together with the
list of package ids for which a registry metadata query was performed (one
`NugetPackageMetadata` construction per listed id). `nuget_packages = none`
models a project directory without a `packages.config` file. -/
def Reference.init (fetch : String → RegistrationInfo)
    (nuget_service_index : NugetServiceIndex) (reference_name : String)
    (nuget_packages : Option (List NuGetPackage)) :
    Except String (Reference × List String) :=
  match pyVersionToken (pySplit ',' reference_name) with
  | Except.error e => Except.error e
  | Except.ok version =>
    match nuget_packages with
    | none =>
        Except.ok ({ FullName := reference_name, Name := refBareName reference_name,
                     Version := version,
                     IsNuGetPackage := false, LatestVersion := none }, [])
    | some pkgs =>
        -- any([p for p in nuget_packages if p.Id == self.Name])
        if pkgs.any (fun p => p.Id == refBareName reference_name) then
          match NugetPackageMetadata.fetchInfo fetch nuget_service_index
              (refBareName reference_name) with
          | Except.error e => Except.error e
          | Except.ok info =>
              Except.ok ({ FullName := reference_name, Name := refBareName reference_name,
                           Version := version,
                           IsNuGetPackage := true,
                           LatestVersion := some (String.intercalate ", "
                             (NugetPackageMetadata.get_latest_version info)) },
                         [refBareName reference_name])
        else
          Except.ok ({ FullName := reference_name, Name := refBareName reference_name,
                       Version := version,
                       IsNuGetPackage := false, LatestVersion := none }, [])

/-! ### analyze_cs_projects.py: orchestrator state and project parsing -/

/-- The `self.all_references` dict of `ProjectsAnalyzer`: an insertion-ordered
association list from declared reference strings (the full `Include` values)
to `Reference` records. -/
abbrev RefMap := List (String × Reference)

/-- Dict lookup. -/
def RefMap.find? (m : RefMap) (k : String) : Option Reference :=
  (List.find? (fun kv => kv.1 == k) m).map (fun kv => kv.2)

/-- Mutable orchestrator state threaded through the analysis:
`all_references` plus the log of registry queries performed so far. -/
structure AnalyzerState where
  all_references : RefMap
  queryLog : List String
deriving DecidableEq

/-- Lines 174-176: look up `ref_name` in `all_references`, constructing and
inserting a new `Reference` when absent, and return the (shared) record. -/
def processRefName (fetch : String → RegistrationInfo) (idx : NugetServiceIndex)
    (ng_packages : Option (List NuGetPackage)) (st : AnalyzerState) (ref_name : String) :
    Except String (AnalyzerState × Reference) :=
  match RefMap.find? st.all_references ref_name with
  | some r => Except.ok (st, r)
  | none =>
    match Reference.init fetch idx ref_name ng_packages with
    | Except.error e => Except.error e
    | Except.ok (r, q) =>
        Except.ok ({ all_references := st.all_references ++ [(ref_name, r)],
                     queryLog := st.queryLog ++ q }, r)

/-- The `for ref_name in references_names` loop inside the `try` of lines
170-178: on an exception the loop stops, the project's reference list becomes
`[]`, but dict insertions already performed persist. -/
def refLoopGo (fetch : String → RegistrationInfo) (idx : NugetServiceIndex)
    (ng_packages : Option (List NuGetPackage)) :
    List String → AnalyzerState → List Reference → AnalyzerState × List Reference
  | [], st, acc => (st, acc)
  | n :: rest, st, acc =>
    match processRefName fetch idx ng_packages st n with
    | Except.error _ => (st, [])
    | Except.ok (st2, r) => refLoopGo fetch idx ng_packages rest st2 (acc ++ [r])

/-- Outcome of `ElementTree.parse` on a project file together with the element
queries the code performs: either parsing raises, or the document yields the
text of each `PropertyGroup/TargetFrameworkVersion` element and the `Include`
attribute of each `ItemGroup/Reference` element. (Reference elements lacking
an `Include` attribute are not modelled; no analyzed claim exercises them.) -/
inductive XmlFile
  | malformed
  | doc (versionTexts : List (Option String)) (refIncludes : List String)
deriving DecidableEq

/-- `ProjectInfo` as built by `ProjectInfo.__init__`. `File` holds the path
(the `file[len(self.folder):]` prefix strip is not modelled; it does not
change the basename-derived `Name` nor any other claim). -/
structure ProjectInfo where
  Name : String
  File : String
  TargetFrameworkVersion : Option String
  References : List Reference
  ng_packages : Option (List NuGetPackage)
deriving DecidableEq

/-- `ProjectsAnalyzer.__read_project_info` (lines 159-181): `ElementTree.parse`
is outside every `try`, so a malformed document propagates `ParseError`; the
two `try` blocks turn a missing version element into `None` and a failing
reference loop into `[]`. -/
def readProjectInfo (fetch : String → RegistrationInfo) (idx : NugetServiceIndex)
    (st : AnalyzerState) (file : String) :
    XmlFile → Option (List NuGetPackage) → Except String (AnalyzerState × ProjectInfo)
  | XmlFile.malformed, _ => Except.error "ParseError"
  | XmlFile.doc versionTexts refIncludes, ng_packages =>
      -- versionTexts.headD none is try: findall(...)[0].text  except: None
      match refLoopGo fetch idx ng_packages refIncludes st [] with
      | (st2, references) =>
          Except.ok (st2, { Name := fileStem file, File := file,
                            TargetFrameworkVersion := versionTexts.headD none,
                            References := references, ng_packages := ng_packages })

/-- One file discovered under the target folder, bundled with the outcomes of
the two external reads the analyzer performs on it: parsing the file itself,
and parsing the sibling `packages.config` (`none` when that file is absent,
matching `__read_project_nuget_packages`). -/
structure FsFile where
  path : String
  xml : XmlFile
  packagesConfig : Option (List NuGetPackage)
deriving DecidableEq

/-- The list comprehension `[self.__read_project_info(f) for f in files]`:
sequential, state-threading, aborting on the first uncaught exception. -/
def analyzeGo (fetch : String → RegistrationInfo) (idx : NugetServiceIndex) :
    List FsFile → AnalyzerState → List ProjectInfo →
    Except String (AnalyzerState × List ProjectInfo)
  | [], st, acc => Except.ok (st, acc)
  | f :: rest, st, acc =>
    match readProjectInfo fetch idx st f.path f.xml f.packagesConfig with
    | Except.error e => Except.error e
    | Except.ok (st2, info) => analyzeGo fetch idx rest st2 (acc ++ [info])

/-- `ProjectsAnalyzer.__get_files_in_folder`, applied to the flat list of all
files under the folder: keep those whose extension equals `extension`
case-insensitively. -/
def get_files_in_folder (files : List FsFile) (extension : String) : List FsFile :=
  let ext := pyUpper extension
  files.filter (fun f => pyUpper (fileExtension f.path) == ext)

/-! ### analyze_cs_projects.py: ReferencesMatrix -/

/-- The `self.uses` dict of `ReferencesMatrix`: insertion-ordered association
list from `Reference` records to boolean usage vectors. (Python keys the dict
by object identity; every live record comes from the `all_references` dedup,
so distinct records always differ in `FullName` and structural equality
coincides with identity.) -/
abbrev UsesMatrix := List (Reference × List Bool)

/-- Reads `self.uses[r][i]`, defaulting to `false` for an absent key or index. -/
def UsesMatrix.entry (uses : UsesMatrix) (r : Reference) (i : Nat) : Bool :=
  match uses.find? (fun kv => kv.1 == r) with
  | some kv => kv.2.getD i false
  | none => false

/-- Lines 74-76: insert an all-false vector of length `nr` on first sight of
`r`, then set position `project_id` of `r`'s vector to true. -/
def markRef (nr project_id : Nat) (uses : UsesMatrix) (r : Reference) : UsesMatrix :=
  let uses1 := if uses.any (fun kv => kv.1 == r) then uses
               else uses ++ [(r, List.replicate nr false)]
  uses1.map (fun kv => if kv.1 == r then (kv.1, kv.2.set project_id true) else kv)

/-- The inner `for reference in project_info.References` loop. (The
`References is not None` guard is omitted: `__read_project_info` always
returns a list.) -/
def markProject (nr project_id : Nat) (uses : UsesMatrix) (refs : List Reference) :
    UsesMatrix :=
  refs.foldl (markRef nr project_id) uses

/-- The `for project_id, project_info in enumerate(projects_info)` loop. -/
def buildGo (nr : Nat) : Nat → List ProjectInfo → UsesMatrix → UsesMatrix
  | _, [], uses => uses
  | project_id, p :: ps, uses =>
      buildGo nr (project_id + 1) ps (markProject nr project_id uses p.References)

/-- `ReferencesMatrix.__init__`, run once after all projects are parsed. -/
def ReferencesMatrix.build (projects_info : List ProjectInfo) : UsesMatrix :=
  buildGo projects_info.length 0 projects_info []

/-! ### analyze_cs_projects.py: HtmlFormatter

The two tables are modelled as their cell contents: a list of rows, each row a
list of cell strings, the first row being the header (`th`) row. The
surrounding HTML markup carries no further data. -/

/-- `HtmlFormatter.get_framework_table`. -/
def get_framework_table (projects_info : List ProjectInfo) : List (List String) :=
  ["Project", "TargetFrameworkVersion"] ::
    projects_info.map (fun p => [p.Name, p.TargetFrameworkVersion.getD ""])

/-- One data row of the references table (lines 125-131). -/
def referenceRow (matrix : UsesMatrix) (nprojects : Nat) (r : Reference) : List String :=
  [r.Name, r.Version, if r.IsNuGetPackage then "Y" else "N", r.LatestVersion.getD ""] ++
    (List.range nprojects).map
      (fun project_id => if UsesMatrix.entry matrix r project_id then "*" else "")

/-- `sorted(references, key=lambda ref: ref.Name)`: Python's stable sort,
ascending by code-point order of the bare name. -/
def sortRefsByName (refs : List Reference) : List Reference :=
  refs.mergeSort (fun a b => strLe a.Name b.Name)

/-- `HtmlFormatter.get_references_table`. -/
def get_references_table (projects_info : List ProjectInfo) (matrix : UsesMatrix) :
    List (List String) :=
  (["Reference", "Version", "IsNuGetPackage", "LatestVersion"] ++
      projects_info.map (fun p => p.Name)) ::
    (sortRefsByName (matrix.map (fun kv => kv.1))).map
      (referenceRow matrix projects_info.length)

/-! ### analyze_cs_projects.py: ProjectsAnalyzer -/

/-- Everything `ProjectsAnalyzer.__init__` leaves behind. -/
structure AnalyzerResult where
  state : AnalyzerState
  projects_info : List ProjectInfo
  reference_matrix : UsesMatrix
deriving DecidableEq

/-- `ProjectsAnalyzer.__init__`: filter the folder's files to `.csproj`, read
every project sequentially, then build the references matrix. -/
def ProjectsAnalyzer.run (fetch : String → RegistrationInfo) (idx : NugetServiceIndex)
    (allFiles : List FsFile) : Except String AnalyzerResult :=
  let files := get_files_in_folder allFiles ".csproj"
  match analyzeGo fetch idx files { all_references := [], queryLog := [] } [] with
  | Except.error e => Except.error e
  | Except.ok (st, projects) =>
      Except.ok { state := st, projects_info := projects,
                  reference_matrix := ReferencesMatrix.build projects }

/-- Reports whether a modelled Python computation completed without raising. -/
def exceptIsOk {ε α : Type} : Except ε α → Bool
  | Except.ok _ => true
  | Except.error _ => false

/-- Run invariant of the orchestrator state: reference-string keys are never
duplicated, every stored record carries its key as `FullName`, and the number
of registry queries performed equals the number of stored records flagged as
NuGet packages (each record construction queries exactly once when and only
when it sets the flag). -/
def StInv (st : AnalyzerState) : Prop :=
  (st.all_references.map Prod.fst).Nodup ∧
  (∀ kv ∈ st.all_references, kv.2.FullName = kv.1) ∧
  st.queryLog.length =
    (st.all_references.filter (fun kv => kv.2.IsNuGetPackage)).length

/-! ### Concrete fixtures used by counterexamples and witnesses -/

/-- HTTP oracle answering every registration request with a single page whose
upper version label is `2.0`. -/
def fetch0 : String → RegistrationInfo := fun _ => ⟨[⟨"2.0"⟩]⟩

/-- A service index exposing a `RegistrationsBaseUrl` resource. -/
def idx0 : NugetServiceIndex := ⟨[⟨"RegistrationsBaseUrl", "https://reg.example/"⟩]⟩

/-- A manifest entry for package `Foo`. -/
def pkgFoo : NuGetPackage := ⟨"Foo", "1.0.0.0", "net48"⟩

/-- Two projects that both depend on the library `Foo`, the first declaring it
as bare `"Foo"`, the second as `"Foo, Version=1.0.0.0"`; both have manifests
listing `Foo`. -/
def filesC1 : List FsFile :=
  [⟨"proj/a.csproj", XmlFile.doc [some "v4.8"] ["Foo"], some [pkgFoo]⟩,
   ⟨"proj/b.csproj", XmlFile.doc [some "v4.8"] ["Foo, Version=1.0.0.0"], some [pkgFoo]⟩]

/-- The record created for `"Foo"` on the run over `filesC1`. -/
def r1 : Reference := ⟨"Foo", "Foo", "", true, some "2.0"⟩

/-- The record created for `"Foo, Version=1.0.0.0"` on the run over `filesC1`. -/
def r2 : Reference := ⟨"Foo, Version=1.0.0.0", "Foo", "1.0.0.0", true, some "2.0"⟩

/-- First parsed project of `filesC1`. -/
def p1 : ProjectInfo := ⟨"a", "proj/a.csproj", some "v4.8", [r1], some [pkgFoo]⟩

/-- Second parsed project of `filesC1`. -/
def p2 : ProjectInfo := ⟨"b", "proj/b.csproj", some "v4.8", [r2], some [pkgFoo]⟩

/-- The full result of the run over `filesC1`. -/
def res0 : AnalyzerResult :=
  ⟨⟨[("Foo", r1), ("Foo, Version=1.0.0.0", r2)], ["Foo", "Foo"]⟩,
   [p1, p2],
   [(r1, [true, false]), (r2, [false, true])]⟩

/-- Placeholder project used as the default of positional list access. -/
def defaultProjectInfo : ProjectInfo := ⟨"", "", none, [], none⟩

/-- Decidable equality of `Except` results, so that runs of the embedded
analyzer can be compared by `decide`. -/
instance exceptDecEq {ε α : Type} [DecidableEq ε] [DecidableEq α] : DecidableEq (Except ε α) :=
  fun x y =>
    match x, y with
    | Except.ok a, Except.ok b =>
        if h : a = b then Decidable.isTrue (by rw [h])
        else Decidable.isFalse (by intro he; injection he; contradiction)
    | Except.error a, Except.error b =>
        if h : a = b then Decidable.isTrue (by rw [h])
        else Decidable.isFalse (by intro he; injection he; contradiction)
    | Except.ok _, Except.error _ => Decidable.isFalse (by intro he; exact Except.noConfusion he)
    | Except.error _, Except.ok _ => Decidable.isFalse (by intro he; exact Except.noConfusion he)

/-! ### Order lemmas for the Python string comparison -/

theorem charListLe_total : ∀ a b, charListLe a b || charListLe b a
  | [], _ => by simp [charListLe]
  | _ :: _, [] => by simp [charListLe]
  | a :: as, b :: bs => by
    simp only [charListLe]
    rcases Nat.lt_trichotomy a.toNat b.toNat with h | h | h
    · simp [h]
    · simp [h, Nat.lt_irrefl, charListLe_total as bs]
    · simp [h, Nat.lt_asymm h]

theorem charListLe_trans : ∀ a b c, charListLe a b = true → charListLe b c = true →
    charListLe a c = true
  | [], _, _, _, _ => rfl
  | _ :: _, [], _, h1, _ => by simp [charListLe] at h1
  | _ :: _, _ :: _, [], _, h2 => by simp [charListLe] at h2
  | a :: as, b :: bs, c :: cs, h1, h2 => by
    simp only [charListLe] at h1 h2 ⊢
    rcases Nat.lt_trichotomy a.toNat b.toNat with hab | hab | hab
    · rcases Nat.lt_trichotomy b.toNat c.toNat with hbc | hbc | hbc
      · rw [if_pos (by omega : a.toNat < c.toNat)]
      · rw [if_pos (by omega : a.toNat < c.toNat)]
      · rw [if_neg (by omega), if_pos hbc] at h2; simp at h2
    · rw [if_neg (by omega), if_neg (by omega)] at h1
      rcases Nat.lt_trichotomy b.toNat c.toNat with hbc | hbc | hbc
      · rw [if_pos (by omega : a.toNat < c.toNat)]
      · rw [if_neg (by omega), if_neg (by omega)] at h2
        rw [if_neg (by omega), if_neg (by omega)]
        exact charListLe_trans as bs cs h1 h2
      · rw [if_neg (by omega), if_pos hbc] at h2; simp at h2
    · rw [if_neg (by omega), if_pos hab] at h1; simp at h1

theorem strLe_total : ∀ a b : String, strLe a b || strLe b a :=
  fun a b => charListLe_total a.data b.data

theorem strLe_trans : ∀ a b c : String, strLe a b = true → strLe b c = true → strLe a c = true :=
  fun a b c => charListLe_trans a.data b.data c.data

/-! ### Lemmas about `pyVersionToken` and `Reference.init` -/

theorem pyVersionToken_ok {tokens : List String} {v : String}
    (h : pyVersionToken tokens = Except.ok v) :
    (1 < tokens.length → (pySplit '=' (tokens.getD 1 "")).get? 1 = some v) ∧
    (¬ 1 < tokens.length → v = "") := by
  unfold pyVersionToken at h
  split at h
  · constructor
    · intro _
      split at h
      · rename_i hv
        rw [hv]
        injection h with h
        rw [h]
      · exact Except.noConfusion h
    · intro hc
      exact absurd (by assumption) hc
  · constructor
    · intro hc
      exact absurd hc (by assumption)
    · intro _
      injection h with h
      rw [h]

theorem pyVersionToken_ok_of_snd {tokens : List String}
    (h : ∀ t, tokens.get? 1 = some t → 2 ≤ (pySplit '=' t).length) :
    ∃ v, pyVersionToken tokens = Except.ok v := by
  unfold pyVersionToken
  split
  · rename_i hlen
    have hget : tokens.get? 1 = some (tokens.getD 1 "") := by
      simp [List.get?_eq_getElem?, List.getD_eq_getElem?_getD, List.getElem?_eq_getElem hlen]
    have h2 := h _ hget
    rcases hsome : (pySplit '=' (tokens.getD 1 "")).get? 1 with _ | v
    · rw [List.get?_eq_getElem?] at hsome
      rw [List.getElem?_eq_none_iff] at hsome
      omega
    · exact ⟨v, rfl⟩
  · exact ⟨"", rfl⟩

/-- Everything a successful `Reference.__init__` guarantees about the record
and the registry queries it performed. -/
theorem Reference.init_ok_spec {fetch : String → RegistrationInfo}
    {idx : NugetServiceIndex} {name : String} {pkgs : Option (List NuGetPackage)}
    {r : Reference} {q : List String}
    (h : Reference.init fetch idx name pkgs = Except.ok (r, q)) :
    r.FullName = name ∧
    r.Name = (pySplit ',' name).headD "" ∧
    q = (if r.IsNuGetPackage then [r.Name] else []) ∧
    r.LatestVersion.isSome = r.IsNuGetPackage ∧
    (pkgs = none → r.IsNuGetPackage = false) ∧
    (∀ l, pkgs = some l → r.IsNuGetPackage = l.any (fun p => p.Id == r.Name)) ∧
    (∃ v, pyVersionToken (pySplit ',' name) = Except.ok v ∧ r.Version = v) := by
  unfold Reference.init at h
  split at h
  · exact Except.noConfusion h
  · rename_i v hv
    split at h
    · simp only [Except.ok.injEq, Prod.mk.injEq] at h
      obtain ⟨hr, hq⟩ := h
      subst hr
      exact ⟨rfl, rfl, hq.symm, rfl, fun _ => rfl,
        fun l hl => Option.noConfusion hl, ⟨v, hv, rfl⟩⟩
    · rename_i l
      split at h
      · rename_i hany
        split at h
        · exact Except.noConfusion h
        · simp only [Except.ok.injEq, Prod.mk.injEq] at h
          obtain ⟨hr, hq⟩ := h
          subst hr
          exact ⟨rfl, rfl, hq.symm, rfl, fun hl => Option.noConfusion hl,
            fun l' hl => by injection hl with hl2; subst hl2; exact hany.symm,
            ⟨v, hv, rfl⟩⟩
      · rename_i hany
        simp only [Except.ok.injEq, Prod.mk.injEq] at h
        obtain ⟨hr, hq⟩ := h
        subst hr
        have hf : (l.any fun p => p.Id == refBareName name) = false := by
          simpa using hany
        exact ⟨rfl, rfl, hq.symm, rfl, fun hl => Option.noConfusion hl,
          fun l' hl => by injection hl with hl2; subst hl2; exact hf.symm,
          ⟨v, hv, rfl⟩⟩

/-- A record first seen with no manifest is built exactly like a record whose
bare name matches no manifest entry. -/
theorem Reference.init_none_eq_not_listed (fetch : String → RegistrationInfo)
    (idx : NugetServiceIndex) (name : String) (pkgs : List NuGetPackage)
    (h : pkgs.any (fun p => p.Id == refBareName name) = false) :
    Reference.init fetch idx name (some pkgs) = Reference.init fetch idx name none := by
  unfold Reference.init
  rcases pyVersionToken (pySplit ',' name) with e | v
  · rfl
  · simp [h]

/-- Sufficient conditions for `Reference.__init__` not to raise. -/
theorem Reference.init_total (fetch : String → RegistrationInfo) (idx : NugetServiceIndex)
    (name : String) (pkgs : Option (List NuGetPackage))
    (hv : ∀ t, (pySplit ',' name).get? 1 = some t → 2 ≤ (pySplit '=' t).length)
    (hidx : ∃ uri, idx.get_service_id "RegistrationsBaseUrl" = Except.ok uri) :
    ∃ r q, Reference.init fetch idx name pkgs = Except.ok (r, q) := by
  obtain ⟨v, hv'⟩ := pyVersionToken_ok_of_snd hv
  obtain ⟨uri, huri⟩ := hidx
  rcases hres : Reference.init fetch idx name pkgs with e | ⟨r, q⟩
  · exfalso
    unfold Reference.init at hres
    split at hres
    · rename_i e' heq
      rw [hv'] at heq
      exact Except.noConfusion heq
    · split at hres
      · exact Except.noConfusion hres
      · split at hres
        · split at hres
          · rename_i e' heq
            unfold NugetPackageMetadata.fetchInfo at heq
            split at heq
            · rename_i e2 heq2
              rw [huri] at heq2
              exact Except.noConfusion heq2
            · exact Except.noConfusion heq
          · exact Except.noConfusion hres
        · exact Except.noConfusion hres
  · exact ⟨r, q, rfl⟩

/-! ### Lemmas about the `all_references` dict -/

theorem RefMap.find?_none_not_mem {m : RefMap} {k : String}
    (h : RefMap.find? m k = none) : k ∉ m.map Prod.fst := by
  intro hk
  unfold RefMap.find? at h
  rcases hf : List.find? (fun kv => kv.1 == k) m with _ | kv
  · rw [List.find?_eq_none] at hf
    obtain ⟨kv, hkv, hfst⟩ := List.mem_map.mp hk
    exact hf kv hkv (by simp [hfst])
  · rw [hf] at h
    exact Option.noConfusion h

theorem RefMap.find?_mem {m : RefMap} {k : String} {r : Reference}
    (h : RefMap.find? m k = some r) : (k, r) ∈ m := by
  unfold RefMap.find? at h
  rcases hf : List.find? (fun kv => kv.1 == k) m with _ | kv
  · rw [hf] at h
    exact Option.noConfusion h
  · rw [hf] at h
    simp only [Option.map_some'] at h
    injection h with h
    have hm := List.mem_of_find?_eq_some hf
    have hp := List.find?_some hf
    rw [beq_iff_eq] at hp
    have : kv = (k, r) := by
      rcases kv with ⟨k', r'⟩
      simp_all
    rw [this] at hm
    exact hm

theorem RefMap.find?_append_of_some {m t : RefMap} {k : String} {r : Reference}
    (h : RefMap.find? m k = some r) : RefMap.find? (m ++ t) k = some r := by
  unfold RefMap.find? at h ⊢
  rw [List.find?_append]
  rcases hf : List.find? (fun kv => kv.1 == k) m with _ | kv
  · rw [hf] at h
    exact Option.noConfusion h
  · rw [hf] at h
    rw [hf]
    simpa using h

theorem RefMap.find?_append_new {m : RefMap} {k : String}
    (h : RefMap.find? m k = none) (r : Reference) :
    RefMap.find? (m ++ [(k, r)]) k = some r := by
  unfold RefMap.find? at h ⊢
  rw [List.find?_append]
  rcases hf : List.find? (fun kv => kv.1 == k) m with _ | kv
  · rw [hf, List.find?_cons_of_pos _ (by simp)]
    simp
  · rw [hf] at h
    exact Option.noConfusion h

/-! ### Invariant preservation through the analysis -/

theorem processRefName_inv {fetch : String → RegistrationInfo} {idx : NugetServiceIndex}
    {ng : Option (List NuGetPackage)} {st : AnalyzerState} {n : String}
    {st2 : AnalyzerState} {r : Reference}
    (hInv : StInv st) (h : processRefName fetch idx ng st n = Except.ok (st2, r)) :
    StInv st2 ∧ (∃ t, st2.all_references = st.all_references ++ t) ∧
    RefMap.find? st2.all_references r.FullName = some r := by
  unfold processRefName at h
  split at h
  · rename_i r' hfind
    simp only [Except.ok.injEq, Prod.mk.injEq] at h
    obtain ⟨hst, hr⟩ := h
    subst hst
    subst hr
    refine ⟨hInv, ⟨[], by simp⟩, ?_⟩
    have hmem := RefMap.find?_mem hfind
    have hfull := hInv.2.1 _ hmem
    simp only at hfull
    rw [hfull]
    exact hfind
  · rename_i hfind
    split at h
    · exact Except.noConfusion h
    · rename_i r' q' hinit
      simp only [Except.ok.injEq, Prod.mk.injEq] at h
      obtain ⟨hst, hr⟩ := h
      subst hr
      obtain ⟨hfull, _, hq, _, _, _, _⟩ := Reference.init_ok_spec hinit
      have hnotmem : n ∉ st.all_references.map Prod.fst :=
        RefMap.find?_none_not_mem hfind
      refine ⟨⟨?_, ?_, ?_⟩, ⟨[(n, r')], by rw [← hst]⟩, ?_⟩
      · rw [← hst]
        simp only [List.map_append, List.map_cons, List.map_nil]
        rw [List.nodup_append]
        exact ⟨hInv.1, List.nodup_singleton n, by simpa using hnotmem⟩
      · rw [← hst]
        intro kv hkv
        rcases List.mem_append.mp hkv with hkv | hkv
        · exact hInv.2.1 kv hkv
        · simp only [List.mem_singleton] at hkv
          subst hkv
          exact hfull
      · rw [← hst]
        simp only [List.length_append, List.filter_append]
        rw [hInv.2.2, hq]
        by_cases hp : r'.IsNuGetPackage = true
        · simp [hp, List.filter]
        · simp only [Bool.not_eq_true] at hp
          simp [hp, List.filter]
      · rw [← hst, hfull]
        exact RefMap.find?_append_new hfind r'

theorem refLoopGo_inv {fetch : String → RegistrationInfo} {idx : NugetServiceIndex}
    {ng : Option (List NuGetPackage)} :
    ∀ (names : List String) (st : AnalyzerState) (acc : List Reference)
      {st2 : AnalyzerState} {refs : List Reference},
      StInv st →
      (∀ r ∈ acc, RefMap.find? st.all_references r.FullName = some r) →
      refLoopGo fetch idx ng names st acc = (st2, refs) →
      StInv st2 ∧ (∃ t, st2.all_references = st.all_references ++ t) ∧
      ∀ r ∈ refs, RefMap.find? st2.all_references r.FullName = some r := by
  intro names
  induction names with
  | nil =>
    intro st acc st2 refs hInv hacc h
    unfold refLoopGo at h
    simp only [Prod.mk.injEq] at h
    obtain ⟨hst, hrefs⟩ := h
    subst hst
    subst hrefs
    exact ⟨hInv, ⟨[], by simp⟩, hacc⟩
  | cons n rest ih =>
    intro st acc st2 refs hInv hacc h
    unfold refLoopGo at h
    split at h
    · simp only [Prod.mk.injEq] at h
      obtain ⟨hst, hrefs⟩ := h
      subst hst
      subst hrefs
      exact ⟨hInv, ⟨[], by simp⟩, by simp⟩
    · rename_i st' r' hproc
      obtain ⟨hInv', ⟨t, ht⟩, hfind⟩ := processRefName_inv hInv hproc
      have hacc' : ∀ x ∈ acc ++ [r'], RefMap.find? st'.all_references x.FullName = some x := by
        intro x hx
        rcases List.mem_append.mp hx with hx | hx
        · rw [ht]
          exact RefMap.find?_append_of_some (hacc x hx)
        · simp only [List.mem_singleton] at hx
          subst hx
          exact hfind
      obtain ⟨hI, ⟨t2, ht2⟩, hrefs⟩ := ih st' (acc ++ [r']) hInv' hacc' h
      exact ⟨hI, ⟨t ++ t2, by rw [ht2, ht, List.append_assoc]⟩, hrefs⟩

theorem readProjectInfo_inv {fetch : String → RegistrationInfo} {idx : NugetServiceIndex}
    {st : AnalyzerState} {file : String} {xml : XmlFile}
    {ng : Option (List NuGetPackage)} {st2 : AnalyzerState} {info : ProjectInfo}
    (hInv : StInv st)
    (h : readProjectInfo fetch idx st file xml ng = Except.ok (st2, info)) :
    StInv st2 ∧ (∃ t, st2.all_references = st.all_references ++ t) ∧
    ∀ r ∈ info.References, RefMap.find? st2.all_references r.FullName = some r := by
  cases xml with
  | malformed => exact Except.noConfusion h
  | doc vts ris =>
    simp only [readProjectInfo] at h
    rcases hrl : refLoopGo fetch idx ng ris st [] with ⟨st', refs⟩
    rw [hrl] at h
    simp only [Except.ok.injEq, Prod.mk.injEq] at h
    obtain ⟨hst, hinfo⟩ := h
    subst hst
    subst hinfo
    obtain ⟨hI, hext, hrefs⟩ := refLoopGo_inv ris st [] hInv (by simp) hrl
    exact ⟨hI, hext, hrefs⟩

theorem analyzeGo_inv {fetch : String → RegistrationInfo} {idx : NugetServiceIndex} :
    ∀ (files : List FsFile) (st : AnalyzerState) (acc : List ProjectInfo)
      {st2 : AnalyzerState} {projects : List ProjectInfo},
      StInv st →
      (∀ info ∈ acc, ∀ r ∈ info.References,
        RefMap.find? st.all_references r.FullName = some r) →
      analyzeGo fetch idx files st acc = Except.ok (st2, projects) →
      StInv st2 ∧
      ∀ info ∈ projects, ∀ r ∈ info.References,
        RefMap.find? st2.all_references r.FullName = some r := by
  intro files
  induction files with
  | nil =>
    intro st acc st2 projects hInv hacc h
    unfold analyzeGo at h
    simp only [Except.ok.injEq, Prod.mk.injEq] at h
    obtain ⟨hst, hproj⟩ := h
    subst hst
    subst hproj
    exact ⟨hInv, hacc⟩
  | cons f rest ih =>
    intro st acc st2 projects hInv hacc h
    unfold analyzeGo at h
    split at h
    · exact Except.noConfusion h
    · rename_i st' info hread
      obtain ⟨hInv', ⟨t, ht⟩, hrefs⟩ := readProjectInfo_inv hInv hread
      have hacc' : ∀ x ∈ acc ++ [info], ∀ r ∈ x.References,
          RefMap.find? st'.all_references r.FullName = some r := by
        intro x hx r hr
        rcases List.mem_append.mp hx with hx | hx
        · rw [ht]
          exact RefMap.find?_append_of_some (hacc x hx r hr)
        · simp only [List.mem_singleton] at hx
          subst hx
          exact hrefs r hr
      exact ih st' (acc ++ [info]) hInv' hacc' h

/-! ### Lemmas about the usage matrix -/

theorem getD_set_bool {l : List Bool} {nr pid i : Nat}
    (hlen : l.length = nr) (hpid : pid < nr) (hi : i < nr) :
    (l.set pid true).getD i false = if i = pid then true else l.getD i false := by
  rw [List.getD_eq_getElem?_getD, List.getD_eq_getElem?_getD, List.getElem?_set]
  by_cases hip : pid = i
  · subst hip
    simp [hlen, hpid]
  · simp [hip, Ne.symm hip]

theorem getD_replicate_false {nr i : Nat} :
    (List.replicate nr false).getD i false = false := by
  rw [List.getD_eq_getElem?_getD, List.getElem?_replicate]
  by_cases hi : i < nr <;> simp [hi]

theorem find?_map_keyfix (g : Reference × List Bool → Reference × List Bool)
    (hg : ∀ kv, (g kv).1 = kv.1) (r : Reference) :
    ∀ l : UsesMatrix,
      (l.map g).find? (fun kv => kv.1 == r) = (l.find? (fun kv => kv.1 == r)).map g := by
  intro l
  induction l with
  | nil => rfl
  | cons kv t ih =>
    rw [List.map_cons, List.find?_cons, List.find?_cons, hg kv]
    cases hkv : (kv.1 == r) with
    | false => exact ih
    | true => rfl

theorem any_keys_iff {uses : UsesMatrix} {r : Reference} :
    (uses.any fun kv => kv.1 == r) = true ↔ r ∈ uses.map Prod.fst := by
  rw [List.any_eq_true, List.mem_map]
  constructor
  · rintro ⟨kv, hkv, hb⟩
    exact ⟨kv, hkv, by simpa using hb⟩
  · rintro ⟨kv, hkv, hb⟩
    exact ⟨kv, hkv, by simpa using hb⟩

theorem wf_markRef {nr pid : Nat} {uses : UsesMatrix} {r0 : Reference}
    (hwf : ∀ kv ∈ uses, kv.2.length = nr) :
    ∀ kv ∈ markRef nr pid uses r0, kv.2.length = nr := by
  intro kv hkv
  simp only [markRef] at hkv
  obtain ⟨kv', hkv', hg⟩ := List.mem_map.mp hkv
  have hlen' : kv'.2.length = nr := by
    by_cases hmem : (uses.any fun kv => kv.1 == r0) = true
    · rw [if_pos hmem] at hkv'
      exact hwf kv' hkv'
    · rw [if_neg hmem] at hkv'
      rcases List.mem_append.mp hkv' with h' | h'
      · exact hwf kv' h'
      · simp only [List.mem_singleton] at h'
        subst h'
        simp
  by_cases hb : (kv'.1 == r0) = true
  · rw [if_pos hb] at hg
    rw [← hg]
    simpa using hlen'
  · rw [if_neg hb] at hg
    rw [← hg]
    exact hlen'

theorem entry_markRef {nr pid : Nat} {uses : UsesMatrix} {r0 r : Reference} {i : Nat}
    (hwf : ∀ kv ∈ uses, kv.2.length = nr) (hpid : pid < nr) (hi : i < nr) :
    (UsesMatrix.entry (markRef nr pid uses r0) r i = true ↔
      (r = r0 ∧ i = pid) ∨ UsesMatrix.entry uses r i = true) := by
  have hg : ∀ kv : Reference × List Bool,
      ((fun kv : Reference × List Bool =>
        if kv.1 == r0 then (kv.1, kv.2.set pid true) else kv) kv).1 = kv.1 := by
    intro kv
    by_cases hb : (kv.1 == r0) = true
    · simp [hb]
    · simp [hb]
  unfold UsesMatrix.entry
  simp only [markRef]
  rw [find?_map_keyfix _ hg r]
  by_cases hmem : (uses.any fun kv => kv.1 == r0) = true
  · rw [if_pos hmem]
    rcases hf : uses.find? (fun kv => kv.1 == r) with _ | kv
    · have hnr0 : r ≠ r0 := by
        intro hc
        subst hc
        rw [List.find?_eq_none] at hf
        obtain ⟨kv, hkv, hb⟩ := List.any_eq_true.mp hmem
        exact hf kv hkv hb
      rw [hf]
      simp [hnr0]
    · have hkey : kv.1 = r := by
        have := List.find?_some hf
        rwa [beq_iff_eq] at this
      have hlen : kv.2.length = nr := hwf kv (List.mem_of_find?_eq_some hf)
      rw [hf]
      simp only [Option.map_some']
      by_cases hrr0 : r = r0
      · have hb : (kv.1 == r0) = true := by rw [hkey, hrr0]; exact beq_self_eq_true r0
        simp only [hb, if_true]
        rw [getD_set_bool hlen hpid hi]
        by_cases hip : i = pid
        · simp [hip, hrr0]
        · simp [hip, hrr0]
      · have hb : (kv.1 == r0) = false := by
          rw [hkey]
          exact beq_eq_false_iff_ne.mpr hrr0
        simp only [hb, if_false]
        simp [hrr0]
  · rw [if_neg hmem]
    rw [List.find?_append]
    rcases hf : uses.find? (fun kv => kv.1 == r) with _ | kv
    · rw [hf]
      simp only [Option.none_or]
      rw [List.find?_cons]
      by_cases hrr0 : r = r0
      · have hb : ((r0, List.replicate nr false).1 == r) = true := by
          simp [hrr0]
        rw [hb]
        simp only [Option.map_some']
        have hb2 : ((r0, List.replicate nr false).1 == r0) = true := by simp
        simp only [hb2, if_true]
        rw [getD_set_bool (by simp) hpid hi, getD_replicate_false]
        by_cases hip : i = pid
        · simp [hip, hrr0]
        · simp [hip, hrr0]
      · have hb : ((r0, List.replicate nr false).1 == r) = false := by
          simp only
          exact beq_eq_false_iff_ne.mpr (fun hc => hrr0 hc.symm)
        rw [hb]
        simp [hrr0]
    · have hkey : kv.1 = r := by
        have := List.find?_some hf
        rwa [beq_iff_eq] at this
      have hmemuses := List.mem_of_find?_eq_some hf
      have hrr0 : r ≠ r0 := by
        intro hc
        rw [any_keys_iff] at hmem
        exact hmem (List.mem_map.mpr ⟨kv, hmemuses, by rw [hkey, hc]⟩)
      have hb : (kv.1 == r0) = false := by
        rw [hkey]
        exact beq_eq_false_iff_ne.mpr hrr0
      rw [hf]
      simp only [Option.or_some, Option.map_some', hb, if_false]
      simp [hrr0]

theorem wf_markProject {nr pid : Nat} {refs : List Reference} :
    ∀ {uses : UsesMatrix}, (∀ kv ∈ uses, kv.2.length = nr) →
      ∀ kv ∈ markProject nr pid uses refs, kv.2.length = nr := by
  induction refs with
  | nil => intro uses hwf; exact hwf
  | cons r0 rt ih =>
    intro uses hwf
    exact ih (wf_markRef hwf)

theorem entry_markProject {nr pid : Nat} {refs : List Reference} :
    ∀ {uses : UsesMatrix} {r : Reference} {i : Nat},
      (∀ kv ∈ uses, kv.2.length = nr) → pid < nr → i < nr →
      (UsesMatrix.entry (markProject nr pid uses refs) r i = true ↔
        (r ∈ refs ∧ i = pid) ∨ UsesMatrix.entry uses r i = true) := by
  induction refs with
  | nil =>
    intro uses r i hwf hpid hi
    simp [markProject]
  | cons r0 rt ih =>
    intro uses r i hwf hpid hi
    have hstep : markProject nr pid uses (r0 :: rt) =
        markProject nr pid (markRef nr pid uses r0) rt := rfl
    rw [hstep, ih (wf_markRef hwf) hpid hi, entry_markRef hwf hpid hi]
    constructor
    · rintro (⟨hin, hip⟩ | ⟨hrr0, hip⟩ | hold)
      · exact Or.inl ⟨List.mem_cons_of_mem _ hin, hip⟩
      · exact Or.inl ⟨by rw [hrr0]; exact List.mem_cons_self _ _, hip⟩
      · exact Or.inr hold
    · rintro (⟨hin, hip⟩ | hold)
      · rcases List.mem_cons.mp hin with hin | hin
        · exact Or.inr (Or.inl ⟨hin, hip⟩)
        · exact Or.inl ⟨hin, hip⟩
      · exact Or.inr (Or.inr hold)

theorem wf_buildGo {nr : Nat} :
    ∀ (ps : List ProjectInfo) (pid : Nat) (uses : UsesMatrix),
      (∀ kv ∈ uses, kv.2.length = nr) →
      ∀ kv ∈ buildGo nr pid ps uses, kv.2.length = nr := by
  intro ps
  induction ps with
  | nil => intro pid uses hwf; exact hwf
  | cons p pt ih =>
    intro pid uses hwf
    exact ih (pid + 1) _ (wf_markProject hwf)

theorem entry_buildGo {nr : Nat} :
    ∀ (ps : List ProjectInfo) (pid : Nat) (uses : UsesMatrix) (r : Reference) (i : Nat),
      (∀ kv ∈ uses, kv.2.length = nr) → pid + ps.length ≤ nr → i < nr →
      (UsesMatrix.entry (buildGo nr pid ps uses) r i = true ↔
        (∃ j, j < ps.length ∧ i = pid + j ∧
          r ∈ (ps.getD j defaultProjectInfo).References) ∨
        UsesMatrix.entry uses r i = true) := by
  intro ps
  induction ps with
  | nil =>
    intro pid uses r i hwf hle hi
    simp [buildGo]
  | cons p pt ih =>
    intro pid uses r i hwf hle hi
    have hpid : pid < nr := by
      simp only [List.length_cons] at hle
      omega
    have hstep : buildGo nr pid (p :: pt) uses =
        buildGo nr (pid + 1) pt (markProject nr pid uses p.References) := rfl
    rw [hstep, ih (pid + 1) _ r i (wf_markProject hwf)
      (by simp only [List.length_cons] at hle; omega) hi,
      entry_markProject hwf hpid hi]
    constructor
    · rintro (⟨j, hj, hij, hmem⟩ | ⟨hin, hip⟩ | hold)
      · refine Or.inl ⟨j + 1, by simpa using Nat.succ_lt_succ hj, by omega, ?_⟩
        simpa [List.getD_cons_succ] using hmem
      · exact Or.inl ⟨0, by simp, by omega, by simpa [List.getD_cons_zero] using hin⟩
      · exact Or.inr hold
    · rintro (⟨j, hj, hij, hmem⟩ | hold)
      · cases j with
        | zero =>
          exact Or.inr (Or.inl ⟨by simpa [List.getD_cons_zero] using hmem, by omega⟩)
        | succ j' =>
          refine Or.inl ⟨j', by simpa using Nat.lt_of_succ_lt_succ hj, by omega, ?_⟩
          simpa [List.getD_cons_succ] using hmem
      · exact Or.inr (Or.inr hold)

theorem entry_build {projects : List ProjectInfo} {r : Reference} {i : Nat}
    (hi : i < projects.length) :
    (UsesMatrix.entry (ReferencesMatrix.build projects) r i = true ↔
      r ∈ (projects.getD i defaultProjectInfo).References) := by
  unfold ReferencesMatrix.build
  rw [entry_buildGo projects 0 [] r i (by simp) (by omega) hi]
  constructor
  · rintro (⟨j, hj, hij, hmem⟩ | hfalse)
    · have hji : j = i := by omega
      subst hji
      exact hmem
    · exact absurd hfalse (by simp [UsesMatrix.entry])
  · intro hmem
    exact Or.inl ⟨i, hi, by omega, hmem⟩

theorem wf_build {projects : List ProjectInfo} :
    ∀ kv ∈ ReferencesMatrix.build projects, kv.2.length = projects.length :=
  wf_buildGo projects 0 [] (by simp)

theorem keys_markRef {nr pid : Nat} {uses : UsesMatrix} {r0 : Reference} :
    (markRef nr pid uses r0).map Prod.fst =
      if r0 ∈ uses.map Prod.fst then uses.map Prod.fst
      else uses.map Prod.fst ++ [r0] := by
  have hmapg : ∀ l : UsesMatrix,
      (l.map (fun kv : Reference × List Bool =>
        if kv.1 == r0 then (kv.1, kv.2.set pid true) else kv)).map Prod.fst =
        l.map Prod.fst := by
    intro l
    induction l with
    | nil => rfl
    | cons kv t ih =>
      rw [List.map_cons, List.map_cons, List.map_cons, ih]
      congr 1
      by_cases hb : (kv.1 == r0) = true
      · simp [hb]
      · simp [hb]
  simp only [markRef]
  by_cases hmem : (uses.any fun kv => kv.1 == r0) = true
  · rw [if_pos hmem, if_pos (any_keys_iff.mp hmem), hmapg]
  · rw [if_neg hmem, if_neg (fun hc => hmem (any_keys_iff.mpr hc)), hmapg]
    rw [List.map_append]
    rfl

theorem nodup_keys_markRef {nr pid : Nat} {uses : UsesMatrix} {r0 : Reference}
    (h : (uses.map Prod.fst).Nodup) :
    ((markRef nr pid uses r0).map Prod.fst).Nodup := by
  rw [keys_markRef]
  by_cases hmem : r0 ∈ uses.map Prod.fst
  · rwa [if_pos hmem]
  · rw [if_neg hmem, List.nodup_append]
    exact ⟨h, List.nodup_singleton r0, by simpa using hmem⟩

theorem keys_markProject_mem {nr pid : Nat} {refs : List Reference} :
    ∀ {uses : UsesMatrix} {r : Reference},
      (r ∈ (markProject nr pid uses refs).map Prod.fst ↔
        r ∈ uses.map Prod.fst ∨ r ∈ refs) := by
  induction refs with
  | nil =>
    intro uses r
    simp [markProject]
  | cons r0 rt ih =>
    intro uses r
    have hstep : markProject nr pid uses (r0 :: rt) =
        markProject nr pid (markRef nr pid uses r0) rt := rfl
    rw [hstep, ih, keys_markRef]
    by_cases hmem : r0 ∈ uses.map Prod.fst
    · rw [if_pos hmem]
      simp only [List.mem_cons]
      constructor
      · rintro (h | h)
        · exact Or.inl h
        · exact Or.inr (Or.inr h)
      · rintro (h | h | h)
        · exact Or.inl h
        · subst h
          exact Or.inl hmem
        · exact Or.inr h
    · rw [if_neg hmem]
      simp only [List.mem_append, List.mem_singleton, List.mem_cons]
      tauto

theorem nodup_keys_markProject {nr pid : Nat} {refs : List Reference} :
    ∀ {uses : UsesMatrix}, (uses.map Prod.fst).Nodup →
      ((markProject nr pid uses refs).map Prod.fst).Nodup := by
  induction refs with
  | nil =>
    intro uses h
    exact h
  | cons r0 rt ih =>
    intro uses h
    exact ih (nodup_keys_markRef h)

theorem keys_buildGo_mem {nr : Nat} :
    ∀ (ps : List ProjectInfo) (pid : Nat) {uses : UsesMatrix} {r : Reference},
      (r ∈ (buildGo nr pid ps uses).map Prod.fst ↔
        r ∈ uses.map Prod.fst ∨ ∃ p ∈ ps, r ∈ p.References) := by
  intro ps
  induction ps with
  | nil =>
    intro pid uses r
    simp [buildGo]
  | cons p pt ih =>
    intro pid uses r
    have hstep : buildGo nr pid (p :: pt) uses =
        buildGo nr (pid + 1) pt (markProject nr pid uses p.References) := rfl
    rw [hstep, ih, keys_markProject_mem]
    simp only [List.mem_cons]
    constructor
    · rintro ((h | h) | ⟨q, hq, hr⟩)
      · exact Or.inl h
      · exact Or.inr ⟨p, Or.inl rfl, h⟩
      · exact Or.inr ⟨q, Or.inr hq, hr⟩
    · rintro (h | ⟨q, hq | hq, hr⟩)
      · exact Or.inl (Or.inl h)
      · subst hq
        exact Or.inl (Or.inr hr)
      · exact Or.inr ⟨q, hq, hr⟩

theorem nodup_keys_buildGo {nr : Nat} :
    ∀ (ps : List ProjectInfo) (pid : Nat) {uses : UsesMatrix},
      (uses.map Prod.fst).Nodup →
      ((buildGo nr pid ps uses).map Prod.fst).Nodup := by
  intro ps
  induction ps with
  | nil =>
    intro pid uses h
    exact h
  | cons p pt ih =>
    intro pid uses h
    exact ih (pid + 1) (nodup_keys_markProject h)

theorem keys_build_mem {projects : List ProjectInfo} {r : Reference} :
    r ∈ (ReferencesMatrix.build projects).map Prod.fst ↔
      ∃ p ∈ projects, r ∈ p.References := by
  unfold ReferencesMatrix.build
  rw [keys_buildGo_mem projects 0]
  simp

theorem nodup_keys_build {projects : List ProjectInfo} :
    ((ReferencesMatrix.build projects).map Prod.fst).Nodup :=
  nodup_keys_buildGo projects 0 (by simp)

theorem find?_of_mem_nodup :
    ∀ {l : UsesMatrix}, (l.map Prod.fst).Nodup →
      ∀ {r : Reference} {v : List Bool}, (r, v) ∈ l →
        l.find? (fun kv => kv.1 == r) = some (r, v) := by
  intro l
  induction l with
  | nil =>
    intro _ r v hm
    exact absurd hm (List.not_mem_nil _)
  | cons a t ih =>
    intro hnd r v hm
    rcases List.mem_cons.mp hm with hm | hm
    · subst hm
      rw [List.find?_cons_of_pos _ (by simp)]
    · have hnd' : (a.1 :: t.map Prod.fst).Nodup := by
        rw [List.map_cons] at hnd
        exact hnd
      have hndc := List.nodup_cons.mp hnd'
      have hne : a.1 ≠ r := by
        intro hc
        apply hndc.1
        rw [hc]
        exact List.mem_map.mpr ⟨(r, v), hm, rfl⟩
      rw [List.find?_cons]
      have hb : (a.1 == r) = false := beq_eq_false_iff_ne.mpr hne
      rw [hb]
      exact ih hndc.2 hm

theorem entry_of_mem_nodup {l : UsesMatrix} (hnd : (l.map Prod.fst).Nodup)
    {r : Reference} {v : List Bool} {i : Nat} (hm : (r, v) ∈ l) :
    UsesMatrix.entry l r i = v.getD i false := by
  unfold UsesMatrix.entry
  rw [find?_of_mem_nodup hnd hm]

/-! ### Claim theorems -/

/-- C2, counterexample: the claim says a malformed project document must not
abort the run, but `ElementTree.parse` sits outside every `try` block in
`__read_project_info`, so a folder containing a single malformed `.csproj`
aborts the whole analysis with `ParseError`. -/
theorem c2_counterexample :
    ProjectsAnalyzer.run fetch0 idx0 [⟨"a.csproj", XmlFile.malformed, none⟩] =
      Except.error "ParseError" := by decide

/-- C2, amended: for every project file whose document parses, reading the
project never raises: an absent framework-version element yields an absent
version and absent reference elements yield an empty reference list; only a
malformed document (see the counterexample) aborts the run. -/
theorem c2_read_project_recovers (fetch : String → RegistrationInfo)
    (idx : NugetServiceIndex) (st : AnalyzerState) (file : String)
    (vts : List (Option String)) (ris : List String)
    (ng : Option (List NuGetPackage)) :
    readProjectInfo fetch idx st file (XmlFile.doc vts ris) ng =
      Except.ok ((refLoopGo fetch idx ng ris st []).1,
        { Name := fileStem file, File := file,
          TargetFrameworkVersion := vts.headD none,
          References := (refLoopGo fetch idx ng ris st []).2, ng_packages := ng }) ∧
    (vts = [] → vts.headD none = none) ∧
    (ris = [] → refLoopGo fetch idx ng ris st [] = (st, [])) := by
  refine ⟨?_, fun hv => by rw [hv]; rfl, fun hr => by rw [hr]; rfl⟩
  rcases hrl : refLoopGo fetch idx ng ris st [] with ⟨st2, refs⟩
  simp only [readProjectInfo]
  rw [hrl]

/-- C2, witness of the amended theorem at a concrete empty document. -/
theorem c2_witness :
    readProjectInfo fetch0 idx0 ⟨[], []⟩ "a.csproj" (XmlFile.doc [] []) none =
      Except.ok (⟨[], []⟩,
        { Name := "a", File := "a.csproj", TargetFrameworkVersion := none,
          References := [], ng_packages := none }) :=
  (c2_read_project_recovers fetch0 idx0 ⟨[], []⟩ "a.csproj" [] [] none).1

/-- C3, counterexample: a reference first seen with no manifest produces a
record bitwise identical to the record of a reference whose bare name matches
no manifest entry — `IsNuGetPackage = false`, `LatestVersion = None` in both
cases — so no third "not evaluated against registry" state exists in the
record. -/
theorem c3_counterexample :
    Reference.init fetch0 idx0 "LibA" none =
      Except.ok (⟨"LibA", "LibA", "", false, none⟩, []) ∧
    Reference.init fetch0 idx0 "LibA" (some [⟨"Other", "1.0", "net48"⟩]) =
      Except.ok (⟨"LibA", "LibA", "", false, none⟩, []) := by
  constructor
  · decide
  · decide

/-- C3, amended: a reference created while its project has no manifest is
marked `IsNuGetPackage = false` with `LatestVersion = None`, exactly the
marking of a reference whose bare name matches no manifest entry; the record
carries a two-state distinction only. -/
theorem c3_no_manifest_collapses (fetch : String → RegistrationInfo)
    (idx : NugetServiceIndex) (name : String) (r : Reference) (q : List String)
    (h : Reference.init fetch idx name none = Except.ok (r, q)) :
    r.IsNuGetPackage = false ∧ r.LatestVersion = none ∧
    ∀ pkgs : List NuGetPackage,
      (pkgs.any fun p => p.Id == refBareName name) = false →
      Reference.init fetch idx name (some pkgs) = Except.ok (r, q) := by
  obtain ⟨_, _, _, hsome, hnone, _, _⟩ := Reference.init_ok_spec h
  have hflag : r.IsNuGetPackage = false := hnone rfl
  refine ⟨hflag, ?_, ?_⟩
  · rcases hl : r.LatestVersion with _ | v
    · rfl
    · rw [hl] at hsome
      rw [hflag] at hsome
      exact absurd hsome (by simp)
  · intro pkgs hany
    rw [Reference.init_none_eq_not_listed fetch idx name pkgs hany]
    exact h

/-- C3, witness of the amended theorem at a concrete input. -/
theorem c3_witness :
    (⟨"LibA", "LibA", "", false, none⟩ : Reference).IsNuGetPackage = false :=
  (c3_no_manifest_collapses fetch0 idx0 "LibA" ⟨"LibA", "LibA", "", false, none⟩ []
    (by decide)).1

/-- C4: the reference value `"Newtonsoft.Json, Version=12.0.0.0,
Culture=neutral"` parses to bare name `Newtonsoft.Json` and version token
`12.0.0.0`; in general the bare name is the first comma-separated token and,
when a second token exists, the version is the value after `=` in that token,
else the empty string. -/
theorem c4_reference_parse :
    (Reference.init fetch0 idx0 "Newtonsoft.Json, Version=12.0.0.0, Culture=neutral" none =
      Except.ok (⟨"Newtonsoft.Json, Version=12.0.0.0, Culture=neutral", "Newtonsoft.Json",
        "12.0.0.0", false, none⟩, [])) ∧
    (∀ (fetch : String → RegistrationInfo) (idx : NugetServiceIndex) (s : String)
        (ng : Option (List NuGetPackage)) (r : Reference) (q : List String),
      Reference.init fetch idx s ng = Except.ok (r, q) →
      r.Name = (pySplit ',' s).headD "" ∧
      (1 < (pySplit ',' s).length →
        (pySplit '=' ((pySplit ',' s).getD 1 "")).get? 1 = some r.Version) ∧
      ((pySplit ',' s).length ≤ 1 → r.Version = "")) := by
  constructor
  · decide
  · intro fetch idx s ng r q h
    obtain ⟨_, hname, _, _, _, _, v, hv, hrv⟩ := Reference.init_ok_spec h
    obtain ⟨hv1, hv2⟩ := pyVersionToken_ok hv
    refine ⟨hname, ?_, ?_⟩
    · intro hlen
      rw [hrv]
      exact hv1 hlen
    · intro hlen
      rw [hrv]
      exact hv2 (by omega)

/-- C4, witness of the general clause at a concrete input. -/
theorem c4_witness :
    (⟨"A, Version=1.2", "A", "1.2", false, none⟩ : Reference).Name =
      (pySplit ',' "A, Version=1.2").headD "" :=
  (c4_reference_parse.2 fetch0 idx0 "A, Version=1.2" none
    ⟨"A, Version=1.2", "A", "1.2", false, none⟩ [] (by decide)).1

/-- C7: the metadata lookup queries the resolved registration sub-service at
exactly `uri + lowercased id + "/index.json"`, and the latest-version
operation returns the `upper` field of every listed registration page of the
fetched document. -/
theorem c7_registry_query (fetch : String → RegistrationInfo)
    (idx : NugetServiceIndex) (package_id uri : String)
    (h : idx.get_service_id "RegistrationsBaseUrl" = Except.ok uri) :
    NugetPackageMetadata.fetchInfo fetch idx package_id =
      Except.ok (fetch (uri ++ pyLower package_id ++ "/index.json")) ∧
    ∀ info : RegistrationInfo,
      NugetPackageMetadata.fetchInfo fetch idx package_id = Except.ok info →
      NugetPackageMetadata.get_latest_version info =
        (fetch (uri ++ pyLower package_id ++ "/index.json")).items.map
          (fun x => x.upper) := by
  have h1 : NugetPackageMetadata.fetchInfo fetch idx package_id =
      Except.ok (fetch (uri ++ pyLower package_id ++ "/index.json")) := by
    unfold NugetPackageMetadata.fetchInfo
    rw [h]
    rfl
  refine ⟨h1, ?_⟩
  intro info hinfo
  rw [h1] at hinfo
  injection hinfo with hinfo
  rw [← hinfo]
  rfl

/-- C7, witness at a concrete service index and package id. -/
theorem c7_witness :
    NugetPackageMetadata.fetchInfo fetch0 idx0 "Foo" =
      Except.ok (fetch0 ("https://reg.example/" ++ pyLower "Foo" ++ "/index.json")) :=
  (c7_registry_query fetch0 idx0 "Foo" "https://reg.example/" (by decide)).1

/-- C9: a successfully built record has a present latest-version exactly when
its known-registry-package flag is set; with no manifest, or with a bare name
matching no manifest entry, the latest-version is always absent. -/
theorem c9_latest_iff_package (fetch : String → RegistrationInfo)
    (idx : NugetServiceIndex) (name : String) (pkgs : Option (List NuGetPackage))
    (r : Reference) (q : List String)
    (h : Reference.init fetch idx name pkgs = Except.ok (r, q)) :
    r.LatestVersion.isSome = r.IsNuGetPackage ∧
    (pkgs = none → r.LatestVersion = none) ∧
    (∀ l, pkgs = some l → (∀ p ∈ l, p.Id ≠ r.Name) → r.LatestVersion = none) := by
  obtain ⟨_, _, _, hsome, hnone, hsome', _⟩ := Reference.init_ok_spec h
  have absent : r.IsNuGetPackage = false → r.LatestVersion = none := by
    intro hflag
    rcases hl : r.LatestVersion with _ | v
    · rfl
    · rw [hl, hflag] at hsome
      exact absurd hsome (by simp)
  refine ⟨hsome, ?_, ?_⟩
  · intro hp
    exact absent (hnone hp)
  · intro l hp hne
    apply absent
    rw [hsome' l hp]
    rw [List.any_eq_false]
    intro p hpl
    simpa using hne p hpl

/-- C9, witness at a concrete no-manifest construction. -/
theorem c9_witness :
    (⟨"LibA", "LibA", "", false, none⟩ : Reference).LatestVersion.isSome =
      (⟨"LibA", "LibA", "", false, none⟩ : Reference).IsNuGetPackage :=
  (c9_latest_iff_package fetch0 idx0 "LibA" none ⟨"LibA", "LibA", "", false, none⟩ []
    (by decide)).1

/-- C10: `Reference.__init__` is partial — on `"Foo, bar"` (second token
without `=`) the version extraction raises an unhandled `IndexError` — and it
is total whenever every present second token contains `=` (and the service
index resolves the registration service, which any reachable construction
requires). -/
theorem c10_reference_init_partial :
    (Reference.init fetch0 idx0 "Foo, bar" none = Except.error "IndexError") ∧
    (∀ (fetch : String → RegistrationInfo) (idx : NugetServiceIndex) (s : String)
        (ng : Option (List NuGetPackage)),
      (∀ t, (pySplit ',' s).get? 1 = some t → 2 ≤ (pySplit '=' t).length) →
      (∃ uri, idx.get_service_id "RegistrationsBaseUrl" = Except.ok uri) →
      exceptIsOk (Reference.init fetch idx s ng) = true) := by
  constructor
  · decide
  · intro fetch idx s ng hv hidx
    obtain ⟨r, q, hok⟩ := Reference.init_total fetch idx s ng hv hidx
    rw [hok]
    rfl

/-- C10, witness of the totality clause at a concrete input. -/
theorem c10_witness :
    exceptIsOk (Reference.init fetch0 idx0 "Plain" none) = true :=
  c10_reference_init_partial.2 fetch0 idx0 "Plain" none (by decide)
    ⟨"https://reg.example/", by decide⟩

/-- C5: every vector of the usage matrix has one entry per project, entry `i`
true exactly when project `i` (in discovery order) declares the reference, and
a reference is a key of the matrix exactly when some project declares it. -/
theorem c5_usage_matrix (projects_info : List ProjectInfo) :
    (∀ (r : Reference) (v : List Bool), (r, v) ∈ ReferencesMatrix.build projects_info →
      v.length = projects_info.length ∧
      ∀ i, i < projects_info.length →
        (v.getD i false = true ↔
          r ∈ (projects_info.getD i defaultProjectInfo).References)) ∧
    (∀ r : Reference, r ∈ (ReferencesMatrix.build projects_info).map Prod.fst ↔
      ∃ p ∈ projects_info, r ∈ p.References) := by
  constructor
  · intro r v hm
    refine ⟨wf_build (r, v) hm, ?_⟩
    intro i hi
    rw [← entry_of_mem_nodup nodup_keys_build hm]
    exact entry_build hi
  · intro r
    exact keys_build_mem

/-- C5, witness: on the two-project run fixture, the vector of the record
created for project `a`'s reference `Foo` marks exactly project `a`. -/
theorem c5_witness :
    ([true, false] : List Bool).getD 0 false = true ↔
      r1 ∈ (([p1, p2] : List ProjectInfo).getD 0 defaultProjectInfo).References :=
  ((c5_usage_matrix [p1, p2]).1 r1 [true, false] (by decide)).2 0 (by decide)

/-- C6: the rendered references table has the described header, exactly one
data row per reference record occurring in at least one project, rows sorted
ascending by bare name (Python string order), and each row consisting of the
bare name, version token, single-character `Y`/`N` registry flag,
latest-version label (blank when absent), and one `*`/blank presence cell per
project in discovery order. -/
theorem c6_references_table (projects_info : List ProjectInfo)
    (M : UsesMatrix) (T : List (List String))
    (hM : M = ReferencesMatrix.build projects_info)
    (hT : T = get_references_table projects_info M) :
    T.headD [] = ["Reference", "Version", "IsNuGetPackage", "LatestVersion"] ++
      projects_info.map (fun p => p.Name) ∧
    (T.drop 1).length = M.length ∧
    (M.map Prod.fst).Nodup ∧
    (∀ r : Reference, r ∈ M.map Prod.fst ↔ ∃ p ∈ projects_info, r ∈ p.References) ∧
    ((T.drop 1).map (fun row => row.headD "")).Pairwise
      (fun a b => strLe a b = true) ∧
    (∀ row ∈ T.drop 1, ∃ (r : Reference) (v : List Bool), (r, v) ∈ M ∧
      row = [r.Name, r.Version, if r.IsNuGetPackage then "Y" else "N",
          r.LatestVersion.getD ""] ++
        (List.range projects_info.length).map
          (fun project_id => if UsesMatrix.entry M r project_id then "*" else "") ∧
      ∀ project_id, project_id < projects_info.length →
        (UsesMatrix.entry M r project_id = true ↔
          r ∈ (projects_info.getD project_id defaultProjectInfo).References)) := by
  subst hM
  subst hT
  refine ⟨rfl, ?_, nodup_keys_build, fun r => keys_build_mem, ?_, ?_⟩
  · simp [get_references_table, sortRefsByName]
  · have hmapnames :
        ((get_references_table projects_info
            (ReferencesMatrix.build projects_info)).drop 1).map
          (fun row => row.headD "") =
        (sortRefsByName
            ((ReferencesMatrix.build projects_info).map Prod.fst)).map
          (fun r => r.Name) := by
      simp only [get_references_table, List.drop_succ_cons, List.drop_zero,
        List.map_map]
      rfl
    rw [hmapnames, List.pairwise_map]
    exact List.sorted_mergeSort
      (fun a b c hab hbc => strLe_trans a.Name b.Name c.Name hab hbc)
      (fun a b => strLe_total a.Name b.Name) _
  · intro row hrow
    simp only [get_references_table, List.drop_succ_cons, List.drop_zero] at hrow
    obtain ⟨r, hrmem, hroweq⟩ := List.mem_map.mp hrow
    rw [sortRefsByName, List.mem_mergeSort] at hrmem
    obtain ⟨kv, hkv, hkey⟩ := List.mem_map.mp hrmem
    refine ⟨r, kv.2, ?_, ?_, ?_⟩
    · have : kv = (r, kv.2) := by
        rcases kv with ⟨k, v⟩
        simp_all
      rw [← this]
      exact hkv
    · exact hroweq.symm
    · intro project_id hpid
      exact entry_build hpid

/-- C6, witness: on the two-project fixture the table has one data row per
matrix key. -/
theorem c6_witness :
    (([["Reference", "Version", "IsNuGetPackage", "LatestVersion", "a", "b"],
       ["Foo", "", "Y", "2.0", "*", ""],
       ["Foo", "1.0.0.0", "Y", "2.0", "", "*"]] : List (List String)).drop 1).length =
      ([(r1, [true, false]), (r2, [false, true])] : UsesMatrix).length :=
  (c6_references_table [p1, p2] [(r1, [true, false]), (r2, [false, true])]
    [["Reference", "Version", "IsNuGetPackage", "LatestVersion", "a", "b"],
     ["Foo", "", "Y", "2.0", "*", ""],
     ["Foo", "1.0.0.0", "Y", "2.0", "", "*"]]
    (by decide)
    (by simp [get_references_table, sortRefsByName, List.mergeSort, List.merge,
      strLe, charListLe, referenceRow, r1, r2, p1, p2, UsesMatrix.entry,
      List.range_succ])).2.1

/-- C8: on a folder containing no file with the project extension the run
completes without exception, with no projects, an empty reference table and
both report tables reduced to their header rows. -/
theorem c8_no_project_files (fetch : String → RegistrationInfo)
    (idx : NugetServiceIndex) (allFiles : List FsFile)
    (h : ∀ f ∈ allFiles, pyUpper (fileExtension f.path) ≠ ".CSPROJ") :
    ProjectsAnalyzer.run fetch idx allFiles =
      Except.ok { state := { all_references := [], queryLog := [] },
                  projects_info := [], reference_matrix := [] } ∧
    get_framework_table [] = [["Project", "TargetFrameworkVersion"]] ∧
    get_references_table [] [] =
      [["Reference", "Version", "IsNuGetPackage", "LatestVersion"]] := by
  have hext : pyUpper ".csproj" = ".CSPROJ" := by decide
  have hfil : get_files_in_folder allFiles ".csproj" = [] := by
    simp only [get_files_in_folder, hext]
    rw [List.filter_eq_nil_iff]
    intro f hf
    simp only [beq_iff_eq]
    exact h f hf
  refine ⟨?_, rfl, ?_⟩
  · unfold ProjectsAnalyzer.run
    rw [hfil]
    rfl
  · simp [get_references_table, sortRefsByName]

/-- C8, witness: a folder holding a single non-project file (even a malformed
one) yields the degenerate report. -/
theorem c8_witness :
    ProjectsAnalyzer.run fetch0 idx0 [⟨"readme.txt", XmlFile.malformed, none⟩] =
      Except.ok { state := { all_references := [], queryLog := [] },
                  projects_info := [], reference_matrix := [] } :=
  (c8_no_project_files fetch0 idx0 [⟨"readme.txt", XmlFile.malformed, none⟩]
    (by decide)).1

/-- C1, counterexample: dedup is keyed by the full declared reference string,
not the bare name. On the fixture — project `a` declaring `"Foo"` and project
`b` declaring `"Foo, Version=1.0.0.0"`, both with manifests listing `Foo` —
the run ends with two ReferenceRecords whose bare name is `Foo` and performs
two registry queries for `Foo`, though the name appears in `N = 2` projects. -/
theorem c1_counterexample :
    ProjectsAnalyzer.run fetch0 idx0 filesC1 = Except.ok res0 ∧
    res0.state.all_references.map (fun kv => kv.2.Name) = ["Foo", "Foo"] ∧
    res0.state.queryLog = ["Foo", "Foo"] := by
  refine ⟨by decide, by decide, by decide⟩

/-- C1, amended: for every completed run, the dedup key is the full declared
reference string — keys are never duplicated, every record is stored under its
own `FullName`, every reference held by any parsed project is the shared
record registered under its full name, and the number of registry queries
equals the number of flag-true records, hence at most one query per unique
full declared string. -/
theorem c1_dedup_by_full_name (fetch : String → RegistrationInfo)
    (idx : NugetServiceIndex) (allFiles : List FsFile) (res : AnalyzerResult)
    (h : ProjectsAnalyzer.run fetch idx allFiles = Except.ok res) :
    (res.state.all_references.map Prod.fst).Nodup ∧
    (∀ kv ∈ res.state.all_references, kv.2.FullName = kv.1) ∧
    res.state.queryLog.length =
      (res.state.all_references.filter (fun kv => kv.2.IsNuGetPackage)).length ∧
    (∀ info ∈ res.projects_info, ∀ r ∈ info.References,
      RefMap.find? res.state.all_references r.FullName = some r) := by
  simp only [ProjectsAnalyzer.run] at h
  split at h
  · exact Except.noConfusion h
  · rename_i st projects heq
    simp only [Except.ok.injEq] at h
    subst h
    have hInit : StInv { all_references := [], queryLog := [] } :=
      ⟨by simp, by intro kv hkv; exact absurd hkv (List.not_mem_nil kv), rfl⟩
    obtain ⟨hInv, hshare⟩ := analyzeGo_inv _ { all_references := [], queryLog := [] } []
      hInit (by intro info hinfo; exact absurd hinfo (List.not_mem_nil info)) heq
    exact ⟨hInv.1, hInv.2.1, hInv.2.2, hshare⟩

/-- C1, witness of the amended theorem on the two-project fixture. -/
theorem c1_witness :
    (res0.state.all_references.map Prod.fst).Nodup :=
  (c1_dedup_by_full_name fetch0 idx0 filesC1 res0 (by decide)).1

end CsProj
